import Mathlib

/-!
# Verification of the VisualRWKV core against its specification

Shallow embedding of the parts of `src/VisualRWKV-v5/v5.1/src/model.py` and
`src/VisualRWKV-v5/v5.1_old/src/model.py` that the claims are about:

* the truncation policy `VisualRWKV.truncate_input`;
* the static scan orders `get_spiral_scan_order`, `get_snake_scan_order`,
  `get_zigzag_scan_order` and the rotation helper `rotate_tensor`;
* the multimodal embedding assembler `VisualRWKV.preparing_embedding`;
* the log-space decay of `WKV_5.forward`;
* the contrastive alignment module `ContrastiveAlignment` (old file);
* the generation entry point `VisualRWKV.generate`.

Token sequences are lists of `Int` (the sentinels are negative), embedding
vectors are kept abstract or are lists of reals, and batch tensors are lists
of per-sample lists.
-/

namespace VisualRWKV

/-- `IGNORE_INDEX` from `src/dataset.py` line 16. -/
def IGNORE_INDEX : Int := -100

/-- `IMAGE_TOKEN_INDEX` from `src/dataset.py` line 17. -/
def IMAGE_TOKEN_INDEX : Int := -200

/-! ## Truncation policy (`VisualRWKV.truncate_input`, v5.1 model.py 628-641) -/

/-- Python `xs[-c:]`: the trailing `c` elements, except that `xs[-0:]` is the
whole list (`-0 == 0` in Python). -/
def pyTail (c : Nat) (xs : List α) : List α :=
  if c = 0 then xs else xs.drop (xs.length - c)

/-- The body of the `for x, y in zip(new_input_embeds, new_labels)` loop of
`truncate_input`: keep the leading `ctx_len` positions when the leading
prefix holds a label different from `IGNORE_INDEX`, otherwise keep the
trailing `ctx_len` positions. -/
def truncateOne (ctx_len : Nat) (x : List α) (y : List Int) :
    List α × List Int :=
  if ((y.take ctx_len).filter (fun i => i ≠ IGNORE_INDEX)) ≠ [] then
    (x.take ctx_len, y.take ctx_len)
  else
    (pyTail ctx_len x, pyTail ctx_len y)

/-- `VisualRWKV.truncate_input` over a batch of (embeds, labels) pairs. -/
def truncate_input (ctx_len : Nat) (batch : List (List α × List Int)) :
    List (List α × List Int) :=
  batch.map (fun p => truncateOne ctx_len p.1 p.2)

/-! ## WKV kernel decay (`WKV_5.forward`, v5.1 model.py 62-63) -/

/-- `ew = -torch.exp(w.float())`, per element. -/
noncomputable def wkv_ew (w : ℝ) : ℝ := -Real.exp w

/-- `eew = torch.exp(ew)`, per element: the effective decay. -/
noncomputable def wkv_eew (w : ℝ) : ℝ := Real.exp (wkv_ew w)

/-! ## Static scan orders (v5.1 model.py 767-844)

`matrix[r][c] = r*n + c` throughout (`torch.arange(n*n).reshape(n, n)`). -/

/-- The `while left <= right and top <= bottom` loop of
`get_spiral_scan_order`.  Bounds are inclusive, as in the source; the Python
ranges are rendered with `List.range'`:
`range(left, right+1) = range' left (right+1-left)`,
`range(top+1, bottom+1) = range' (top+1) (bottom-top)`,
`range(right-1, left, -1) = (range' (left+1) (right-1-left)).reverse`,
`range(bottom, top, -1) = (range' (top+1) (bottom-top)).reverse`. -/
def spiralAux (n left right top bottom : Nat) : List Nat :=
  if _h : left ≤ right ∧ top ≤ bottom then
    ((List.range' left (right + 1 - left)).map (fun c => top * n + c)) ++
    ((List.range' (top + 1) (bottom - top)).map (fun r => r * n + right)) ++
    (if left < right ∧ top < bottom then
      (((List.range' (left + 1) (right - 1 - left)).map
          (fun c => bottom * n + c)).reverse) ++
      (((List.range' (top + 1) (bottom - top)).map
          (fun r => r * n + left)).reverse)
     else []) ++
    spiralAux n (left + 1) (right - 1) (top + 1) (bottom - 1)
  else []
termination_by (right + 1 - left) + (bottom + 1 - top)
decreasing_by omega

/-- `get_spiral_scan_order(n)`.  For `n = 0` the Python loop guard
`left <= right` is `0 <= -1` and fails at once; `Nat` cannot hold `-1`, so
that case is written out. -/
def get_spiral_scan_order (n : Nat) : List Nat :=
  if n = 0 then [] else spiralAux n 0 (n - 1) 0 (n - 1)

/-- `get_snake_scan_order(n)`: even rows left-to-right, odd rows reversed. -/
def get_snake_scan_order (n : Nat) : List Nat :=
  (List.range n).flatMap (fun i =>
    if i % 2 = 0 then (List.range n).map (fun j => i * n + j)
    else ((List.range n).map (fun j => i * n + j)).reverse)

/-- One diagonal of `get_zigzag_scan_order(n)`: the cells visited by the inner
`while` loop for diagonal `i`.  Going up, the walk starts at `(i, 0)` (when
`i < n`) or `(n-1, i-(n-1))` and steps `row -= 1, col += 1` while
`row ≥ 0 ∧ col < n`, which runs for `i+1` resp. `2n-1-i` steps; going down it
starts at `(0, i)` or `(i-(n-1), n-1)` and steps `row += 1, col -= 1`, with
the same step counts. -/
def zigzagDiag (n i : Nat) (going_up : Bool) : List Nat :=
  if going_up then
    if i < n then (List.range (i + 1)).map (fun k => (i - k) * n + k)
    else (List.range (2 * n - 1 - i)).map
      (fun k => (n - 1 - k) * n + (i - (n - 1) + k))
  else
    if i < n then (List.range (i + 1)).map (fun k => k * n + (i - k))
    else (List.range (2 * n - 1 - i)).map
      (fun k => (i - (n - 1) + k) * n + (n - 1 - k))

/-- `get_zigzag_scan_order(n)`: the `going_up` flag starts `True` and toggles
after each of the `rows + cols - 1` diagonals, so diagonal `i` goes up
exactly when `i` is even. -/
def get_zigzag_scan_order (n : Nat) : List Nat :=
  (List.range (2 * n - 1)).flatMap (fun i => zigzagDiag n i (i % 2 = 0))

/-- Applying a scan order to a sequence, as in `x_emb[:, self.spiral_order]`:
position `j` of the result holds element `p[j]` of the input. -/
def applyOrder (p : List Nat) (d : α) (xs : List α) : List α :=
  p.map (fun i => xs.getD i d)

/-- The inverse permutation of a scan order `p` on `{0, …, p.length - 1}`. -/
def invOrder (p : List Nat) : List Nat :=
  (List.range p.length).map (fun i => p.indexOf i)

/-- The cells `r*n + c` of the axis-aligned grid rectangle with `h` rows
starting at row `top` and `w` columns starting at column `left` (proof
device for the spiral order). -/
def rectCells (n top h left w : Nat) : List Nat :=
  (List.range' top h).flatMap (fun r => (List.range' left w).map (fun c => r * n + c))

/-! ## Multimodal embedding assembler (`VisualRWKV.preparing_embedding`,
v5.1 model.py 619-702)

Embedding vectors are an abstract type `α` with a designated zero vector
`zero`; `emb : Int → α` is the trunk's token-embedding table. -/

/-- `get_max_image_token_indice`: the largest first-placeholder index over the
samples that contain exactly one placeholder (v5.1 model.py 619-626).
`List.indexOf` is the Python `torch.where(...)[0][0]` (first occurrence). -/
def get_max_image_token_indice (batch : List (List Int)) : Nat :=
  batch.foldl
    (fun m ids =>
      if ids.count IMAGE_TOKEN_INDEX = 1 then max m (ids.indexOf IMAGE_TOKEN_INDEX) else m)
    0

/-- The fatal errors `preparing_embedding` can raise per sample:
`tooManyImages` is the `ValueError(f"Too many images in one sample: ...")` of
line 668 (carrying the offending count); `badSliceAssign` is the shape
mismatch `RuntimeError` that `cur_new_input_ids[-i:] = cur_input_ids[:i]`
raises when the two slices have different lengths (Python `[-0:]` is the
whole tensor). -/
inductive PrepError where
  | tooManyImages (num : Nat)
  | badSliceAssign
deriving DecidableEq, Repr

/-- The body of the `for idx, cur_input_ids in enumerate(...)` loop of
`preparing_embedding` (v5.1 model.py 654-688) for one sample: returns the
merged embedding sequence, the merged label sequence, and the image-feature
sequence actually used for this sample (`image_features[idx]` after the
`num_images == 0` zeroing). -/
def assembleSample (emb : Int → α) (zero : α) (M : Nat) (feats : List α)
    (ids labels : List Int) :
    Except PrepError (List α × List Int × List α) :=
  let num := ids.count IMAGE_TOKEN_INDEX
  if num = 0 then
    -- image_features[idx] = torch.zeros_like(image_features[idx])
    let featsUsed := List.replicate feats.length zero
    .ok (((List.replicate M (0 : Int)).map emb) ++ featsUsed ++ ids.map emb,
         (List.replicate M IGNORE_INDEX ++ List.replicate feats.length IGNORE_INDEX
            ++ labels,
          featsUsed))
  else if num = 1 then
    let i := ids.indexOf IMAGE_TOKEN_INDEX
    if (i = 0 ∧ M ≠ 0) ∨ M < i then .error .badSliceAssign
    else
      .ok ((((List.replicate (M - i) (0 : Int)) ++ ids.take i).map emb) ++ feats
             ++ (ids.drop (i + 1)).map emb,
           ((List.replicate (M - i) IGNORE_INDEX ++ labels.take i)
              ++ List.replicate feats.length IGNORE_INDEX ++ labels.drop (i + 1),
            feats))
  else .error (.tooManyImages num)

/-- The sample loop of `preparing_embedding`, short-circuiting on the first
fatal error; returns the per-sample merged sequences and the (mutated)
image-feature batch. -/
def prepareLoop (emb : Int → α) (zero : α) (M : Nat) :
    List ((List Int × List Int) × List α) →
    Except PrepError (List (List α × List Int) × List (List α))
  | [] => .ok ([], [])
  | (s, f) :: rest =>
    match assembleSample emb zero M f s.1 s.2 with
    | .error e => .error e
    | .ok r =>
      match prepareLoop emb zero M rest with
      | .error e => .error e
      | .ok (xs, fs) => .ok ((r.1, r.2.1) :: xs, r.2.2 :: fs)

/-- `preparing_embedding` up to (and excluding) truncation and right-padding:
the per-sample merge over a batch of (token ids, labels) with the
corresponding image features. -/
def preparing_embedding (emb : Int → α) (zero : α)
    (batch : List (List Int × List Int)) (featsBatch : List (List α)) :
    Except PrepError (List (List α × List Int) × List (List α)) :=
  prepareLoop emb zero (get_max_image_token_indice (batch.map Prod.fst))
    (batch.zip featsBatch)

/-! ## Rotational scanning (`rotational_forward` + `rotate_tensor`,
v5.1 model.py 494-513 and 740-765)

A hidden-state batch is a list (over the batch) of lists (over time) of
per-position values `α` (channels abstracted into `α`). -/

/-- `rotate_tensor(tensor, distance)`: rotates along the FIRST dimension of
its argument.  `distance % length` in Python is already in `[0, length)` for
positive `length`, so the `if distance < 0` adjustment of the source is a
no-op and `Int.emod`/`toNat` renders it exactly;
`torch.cat((tensor[-d:], tensor[:-d]))` is `drop (len - d) ++ take (len - d)`
(also for `d = 0`, where Python slices give the whole list and the empty
list). -/
def rotate_tensor (t : List α) (distance : Int) : List α :=
  if distance = 0 then t
  else
    let len := t.length
    let d := (distance % (len : Int)).toNat
    t.drop (len - d) ++ t.take (len - d)

/-- One per-layer rotation step of `rotational_forward` (v5.1 model.py 507):
`x[:, img_start:img_end, :] = rotate_tensor(x[:, img_start:img_end, :], d)`
with `d = (img_end - img_start) // 3`.  The first dimension of the slice —
the dimension `rotate_tensor` rotates — is the batch. -/
def rotational_step (img_start img_end : Nat) (x : List (List α)) :
    List (List α) :=
  let rotate_distance : Int := ((img_end - img_start) / 3 : Nat)
  let spans := x.map (fun row => (row.drop img_start).take (img_end - img_start))
  let rotated := rotate_tensor spans rotate_distance
  List.zipWith (fun row sp => row.take img_start ++ sp ++ row.drop img_end) x rotated

/-! ## Generation entry point (`VisualRWKV.generate`, v5.1 model.py 704-737)

The trunk forward is abstracted into `logitsOf : List α → List ℚ`, the
last-position logits of a context (floating-point logits modelled as
rationals); `emb` is the token embedding. -/

/-- `torch.argmax` over a logit vector: the index of the first maximal
value. -/
def argmaxAux (i best : Nat) (bv : ℚ) : List ℚ → Nat
  | [] => best
  | x :: xs => if bv < x then argmaxAux (i + 1) i x xs else argmaxAux (i + 1) best bv xs

/-- First-index argmax of a logit list (0 on the empty list). -/
def listArgmax : List ℚ → Nat
  | [] => 0
  | x :: xs => argmaxAux 1 0 x xs

/-- `VisualRWKV.generate`: fuel is `max_new_tokens`; `x` is the running
context; `do_sample=True` raises `NotImplementedError` (the `Except.error`)
at the first loop iteration; otherwise the greedy arg-max token is emitted,
the loop stops (token included) once it equals `stop_token_idx`, and the
grown context is re-truncated to its last `ctx_len` positions. -/
def generate (logitsOf : List α → List ℚ) (emb : Nat → α)
    (ctx_len : Nat) (stop_token_idx : Nat) (do_sample : Bool) :
    Nat → List α → Except Unit (List Nat)
  | 0, _ => .ok []
  | m + 1, x =>
    if do_sample then .error ()
    else
      let t := listArgmax (logitsOf x)
      if t = stop_token_idx then .ok [t]
      else
        match generate logitsOf emb ctx_len stop_token_idx do_sample m
            (pyTail ctx_len (x ++ [emb t])) with
        | .ok rest => .ok (t :: rest)
        | .error e => .error e

/-- A concrete logits oracle exercising `generate`: a length-1 context
scores token 1 highest, any other context scores token 0 highest. -/
def demo_logits (c : List Unit) : List ℚ :=
  if c.length = 1 then [0, 5] else [9, 0]

/-- A concrete token embedding exercising `generate`. -/
def demo_emb (_t : Nat) : Unit := ()

/-! ## Contrastive alignment module (`ContrastiveAlignment`,
v5.1_old model.py 551-635)

Vectors are `List ℝ` of dimension `D`; a per-sample sequence is
`List (List ℝ)`; a batch stacks those in a list.  Divisions whose
denominator can be zero in the source (empty feature sequence, all-padding
mask) are guarded with `Option`, the float `nan`/`inf` outcomes. -/

/-- Dot product of two feature vectors. -/
def dotR (u v : List ℝ) : ℝ := (List.zipWith (· * ·) u v).sum

/-- Sum of a list of `D`-dimensional rows (`.sum(dim=...)`). -/
noncomputable def vecSum (D : Nat) (rows : List (List ℝ)) : List ℝ :=
  (List.range D).map (fun d => (rows.map (fun r => r.getD d 0)).sum)

/-- `softmax` along a logit list. -/
noncomputable def softmaxR (xs : List ℝ) : List ℝ :=
  xs.map (fun x => Real.exp x / (xs.map Real.exp).sum)

/-- Masked mean text pooling of one sample (`mean` reduction, line 570):
`text_embeds.sum(dim=1) / text_masks.sum(dim=-1)`.  A zero mask count is the
float division by zero. -/
noncomputable def poolTextMean (D : Nat) (te : List (List ℝ)) (mask : List Bool) :
    Option (List ℝ) :=
  let cnt := (mask.filter id).length
  if cnt = 0 then none
  else some ((vecSum D te).map (fun x => x / (cnt : ℝ)))

/-- Mean vision pooling of one sample (line 569): `vision_features.mean(dim=1)`;
an empty feature sequence is the float division by zero. -/
noncomputable def poolVisionMean (D : Nat) (vf : List (List ℝ)) : Option (List ℝ) :=
  if vf.length = 0 then none
  else some ((vecSum D vf).map (fun x => x / (vf.length : ℝ)))

/-- The per-text-position mean text-to-vision similarities of one sample
(`text2vision_similarities.mean(dim=-1)`, line 574/575, unmasked). -/
noncomputable def textSimMeans (te vf : List (List ℝ)) : List ℝ :=
  te.map (fun t => (vf.map (fun v => dotR t v)).sum / (vf.length : ℝ))

/-- The per-vision-position mean similarities
(`text2vision_similarities.mean(dim=-2)`, line 577). -/
noncomputable def visionSimMeans (te vf : List (List ℝ)) : List ℝ :=
  vf.map (fun v => (te.map (fun t => dotR t v)).sum / (te.length : ℝ))

/-- `torch.einsum('ntd,nt->nd', rows, w)` for one sample: the `w`-weighted sum
of the rows. -/
noncomputable def weightedSum (D : Nat) (rows : List (List ℝ)) (w : List ℝ) :
    List ℝ :=
  (List.range D).map (fun d => ((rows.zip w).map (fun p => p.1.getD d 0 * p.2)).sum)

/-- `weighted` reduction pooling of one sample (v5.1_old model.py 571-578).
Line 574 computes mask-penalised weights into `text_embeds_weights` and
line 575 immediately reassigns that variable to the softmax of the UNMASKED
mean similarities, so the binding of line 574 is dead: the weights used are
`softmaxR (textSimMeans te vf)` and `mask` does not occur in the result. -/
noncomputable def poolWeightedSample (D : Nat) (te vf : List (List ℝ))
    (mask : List Bool) : List ℝ × List ℝ :=
  let _text_embeds_weights_masked :=
    List.zipWith (fun w b => w + (if b then (0 : ℝ) else 1) * (-1e9))
      (textSimMeans te vf) mask
  let text_embeds_weights := softmaxR (textSimMeans te vf)
  let vision_features_weights := softmaxR (visionSimMeans te vf)
  (weightedSum D te text_embeds_weights, weightedSum D vf vision_features_weights)

/-- The two pooling policies of `ContrastiveAlignment.pool_features` (the
`else: raise ValueError` arm of the source is the absence of further
constructors). -/
inductive Reduction where
  | mean
  | weighted
deriving DecidableEq, Repr

/-- `ContrastiveAlignment.pool_features` over a batch (v5.1_old model.py
565-581); `text_masks = None` becomes all-true masks
(`torch.ones_like(text_embeds[..., 0], dtype=torch.bool)`). -/
noncomputable def pool_features (red : Reduction) (D : Nat)
    (text_embeds vision_features : List (List (List ℝ)))
    (text_masks : Option (List (List Bool))) :
    Option (List (List ℝ) × List (List ℝ)) :=
  let masks := text_masks.getD (text_embeds.map (fun te => List.replicate te.length true))
  match red with
  | .mean => do
    let tp ← (text_embeds.zip masks).mapM (fun p => poolTextMean D p.1 p.2)
    let vp ← vision_features.mapM (poolVisionMean D)
    some (tp, vp)
  | .weighted =>
    let pooled := ((text_embeds.zip vision_features).zip masks).map
      (fun p => poolWeightedSample D p.1.1 p.1.2 p.2)
    some (pooled.map Prod.fst, pooled.map Prod.snd)

/-- `F.cross_entropy` of one logit row against class index `target` with
label smoothing `ε`:
`logsumexp(logits) - ((1-ε)·logits[target] + ε·mean(logits))`. -/
noncomputable def crossEntropySmooth (logits : List ℝ) (target : Nat) (ε : ℝ) : ℝ :=
  Real.log ((logits.map Real.exp).sum) -
    ((1 - ε) * logits.getD target 0 + ε * (logits.sum / (logits.length : ℝ)))

/-- `compute_in_batch_constraive_loss` (v5.1_old model.py 583-593). -/
noncomputable def compute_in_batch_constraive_loss (red : Reduction) (D : Nat)
    (text_embeds vision_features : List (List (List ℝ)))
    (text_masks : List (List Bool)) : Option ℝ := do
  let (tp, vp) ← pool_features red D text_embeds vision_features (some text_masks)
  let t2v := tp.map (fun t => vp.map (fun v => dotR t v))
  let v2t := vp.map (fun v => tp.map (fun t => dotR v t))
  let n := text_embeds.length
  let t2v_loss := ((t2v.enum.map (fun p => crossEntropySmooth p.2 p.1 0.1)).sum) / (n : ℝ)
  let v2t_loss := ((v2t.enum.map (fun p => crossEntropySmooth p.2 p.1 0.1)).sum) / (n : ℝ)
  some ((t2v_loss + v2t_loss) / 2)

/-- `compute_in_queue_constraive_loss` (v5.1_old model.py 595-611): per
sample, the logit row is `pos :: neg_text ++ neg_vision` and the positive
class index is 0; the loss is the batch mean. -/
noncomputable def compute_in_queue_constraive_loss (red : Reduction) (D : Nat)
    (text_embeds vision_features : List (List (List ℝ)))
    (text_masks : List (List Bool))
    (text_neg_embeds vision_neg_features : List (List (List ℝ))) : Option ℝ := do
  let (tp, vp) ← pool_features red D text_embeds vision_features (some text_masks)
  let (tnp, vnp) ← pool_features red D text_neg_embeds vision_neg_features none
  let logitRows := (tp.zip vp).map (fun p =>
    dotR p.1 p.2 :: (vnp.map (fun q => dotR p.1 q) ++ tnp.map (fun q => dotR p.2 q)))
  some (((logitRows.map (fun l => crossEntropySmooth l 0 0.1)).sum) /
    (text_embeds.length : ℝ))

/-- The ring-buffer state of `ContrastiveAlignment`: the two queues
(`queue_size` entries of raw per-sample sequences) and the write pointer. -/
structure AlignState where
  text_queue : List (List (List ℝ))
  vision_queue : List (List (List ℝ))
  queue_ptr : Nat

/-- `text_embeds * text_masks.unsqueeze(-1)` for one sample. -/
def maskText (te : List (List ℝ)) (mask : List Bool) : List (List ℝ) :=
  List.zipWith (fun row b => row.map (fun x => x * (if b then (1 : ℝ) else 0))) te mask

/-- Python `q[ptr:ptr+len(xs)] = xs` on a list, valid when
`ptr + xs.length ≤ q.length`. -/
def writeSlice (q : List α) (ptr : Nat) (xs : List α) : List α :=
  q.take ptr ++ xs ++ q.drop (ptr + xs.length)

/-- `ContrastiveAlignment.forward` (v5.1_old model.py 613-635).  The loss is
in-batch + in-queue unless `batch_size == 1`, in which case only the
in-queue loss is computed; afterwards — unconditionally — the batch
overwrites both queues at `queue_ptr:queue_ptr+batch_size` and the pointer
advances modulo `queue_size`.  When `queue_ptr + batch_size > queue_size`
the Python slice is shorter than the batch and the assignment raises a
shape-mismatch `RuntimeError` (`Except.error`). -/
noncomputable def align_forward (red : Reduction) (D : Nat) (queue_size : Nat)
    (proj : List ℝ → List ℝ) (st : AlignState)
    (text_embeds vision_embeds : List (List (List ℝ)))
    (text_masks : List (List Bool)) : Except Unit (Option ℝ × AlignState) :=
  let batch_size := text_embeds.length
  let vision_features := vision_embeds.map (fun s => s.map proj)
  let vision_neg_features := st.vision_queue.map (fun s => s.map proj)
  let masked_text_embeds := List.zipWith maskText text_embeds text_masks
  let text_neg_embeds := st.text_queue
  let loss : Option ℝ :=
    if batch_size ≠ 1 then do
      let ib ← compute_in_batch_constraive_loss red D masked_text_embeds
        vision_features text_masks
      let iq ← compute_in_queue_constraive_loss red D masked_text_embeds
        vision_features text_masks text_neg_embeds vision_neg_features
      some (ib + iq)
    else
      compute_in_queue_constraive_loss red D masked_text_embeds
        vision_features text_masks text_neg_embeds vision_neg_features
  if st.queue_ptr + batch_size ≤ queue_size then
    .ok (loss,
      { text_queue := writeSlice st.text_queue st.queue_ptr masked_text_embeds,
        vision_queue := writeSlice st.vision_queue st.queue_ptr vision_embeds,
        queue_ptr := (st.queue_ptr + batch_size) % queue_size })
  else .error ()

/-! ## Theorems -/

/-- C5: for every real-valued decay parameter vector `w`, every element of
the per-element effective decay `exp(-exp(w))` computed by `WKV_5.forward`
(v5.1 model.py 62-63) lies strictly in the open interval `(0, 1)`. -/
theorem wkv_decay_unit_interval (w : List ℝ) (x : ℝ)
    (hx : x ∈ w.map wkv_eew) : 0 < x ∧ x < 1 := by
  obtain ⟨a, -, rfl⟩ := List.mem_map.1 hx
  refine ⟨Real.exp_pos _, ?_⟩
  rw [wkv_eew, wkv_ew, Real.exp_lt_one_iff]
  exact neg_neg_iff_pos.2 (Real.exp_pos a)

/-- Witness for `wkv_decay_unit_interval` at the one-element vector `[0]`. -/
theorem wkv_decay_unit_interval_witness :
    wkv_eew 0 ∈ [(0 : ℝ)].map wkv_eew ∧ (0 < wkv_eew 0 ∧ wkv_eew 0 < 1) :=
  ⟨by simp, wkv_decay_unit_interval [0] _ (by simp)⟩

/-- C1: per sample of the batch, `truncate_input` keeps the leading
`ctx_len` positions whenever the leading `ctx_len` labels contain one
different from `IGNORE_INDEX`, otherwise keeps the trailing `ctx_len`
positions, and leaves samples not longer than `ctx_len` unchanged
(`ctx_len` is positive, as a context length is). -/
theorem truncate_input_policy {α : Type} (ctx_len : Nat) (hctx : 0 < ctx_len)
    (batch : List (List α × List Int)) (i : Nat) (hi : i < batch.length)
    (x : List α) (y : List Int) (hxy : batch.getD i ([], []) = (x, y)) :
    ((∃ v ∈ y.take ctx_len, v ≠ IGNORE_INDEX) →
      (truncate_input ctx_len batch).getD i ([], []) =
        (x.take ctx_len, y.take ctx_len)) ∧
    ((∀ v ∈ y.take ctx_len, v = IGNORE_INDEX) →
      (truncate_input ctx_len batch).getD i ([], []) =
        (x.drop (x.length - ctx_len), y.drop (y.length - ctx_len))) ∧
    (x.length ≤ ctx_len → y.length ≤ ctx_len →
      (truncate_input ctx_len batch).getD i ([], []) = (x, y)) := by
  have hb : batch[i] = (x, y) := by
    simpa [List.getD_eq_getElem?_getD, List.getElem?_eq_getElem hi] using hxy
  have hr : (truncate_input ctx_len batch).getD i ([], []) =
      truncateOne ctx_len x y := by
    simp [truncate_input, List.getD_eq_getElem?_getD, List.getElem?_map,
      List.getElem?_eq_getElem hi, hb]
  rw [hr]
  have hpyx : pyTail ctx_len x = x.drop (x.length - ctx_len) := by
    rw [pyTail, if_neg hctx.ne']
  have hpyy : pyTail ctx_len y = y.drop (y.length - ctx_len) := by
    rw [pyTail, if_neg hctx.ne']
  refine ⟨?_, ?_, ?_⟩
  · rintro ⟨v, hv, hne⟩
    have hfil : (y.take ctx_len).filter (fun i => i ≠ IGNORE_INDEX) ≠ [] :=
      List.ne_nil_of_mem (List.mem_filter.2 ⟨hv, by simpa using hne⟩)
    rw [truncateOne, if_pos hfil]
  · intro hall
    have hfil : (y.take ctx_len).filter (fun i => i ≠ IGNORE_INDEX) = [] :=
      List.filter_eq_nil_iff.2 (fun a ha => by simpa using hall a ha)
    rw [truncateOne, if_neg (fun hc => hc hfil), hpyx, hpyy]
  · intro h1 h2
    have htx : x.take ctx_len = x := List.take_of_length_le h1
    have hty : y.take ctx_len = y := List.take_of_length_le h2
    have hdx : x.drop (x.length - ctx_len) = x := by
      have hz : x.length - ctx_len = 0 := by omega
      rw [hz, List.drop_zero]
    have hdy : y.drop (y.length - ctx_len) = y := by
      have hz : y.length - ctx_len = 0 := by omega
      rw [hz, List.drop_zero]
    by_cases hfil : (y.take ctx_len).filter (fun i => i ≠ IGNORE_INDEX) = []
    · rw [truncateOne, if_neg (fun hc => hc hfil), hpyx, hpyy, hdx, hdy]
    · rw [truncateOne, if_pos hfil, htx, hty]

/-- Witness for `truncate_input_policy`: a one-sample batch shorter than the
context length, with a valid label in the prefix. -/
theorem truncate_input_policy_witness :
    (truncate_input 4 [([(5 : Int)], [(7 : Int)])]).getD 0 ([], []) =
      (([5] : List Int).take 4, ([7] : List Int).take 4) :=
  (truncate_input_policy 4 (by decide) [([5], [7])] 0 (by decide) [5] [7] rfl).1
    ⟨7, by decide, by decide⟩

/-- C8 (code bug evidence): one rotational scanning step at a concrete
two-sample batch with `img_start = 0`, `img_end = 3` (span length 3, rotate
distance `3 // 3 = 1`).  `rotate_tensor` rotates the first dimension of
`x[:, img_start:img_end, :]`, which is the batch axis, so sample 0 receives
sample 1's span and vice versa — not, as specified, each sample's own span
rotated along time (which would give `[[3, 1, 2], [6, 4, 5]]`). -/
theorem rotational_step_rotates_batch_axis :
    rotational_step 0 3 [[1, 2, 3], [4, 5, 6]] = [[4, 5, 6], [1, 2, 3]] ∧
    rotational_step 0 3 [[1, 2, 3], [4, 5, 6]] ≠ [[3, 1, 2], [6, 4, 5]] := by
  constructor <;> decide

/-- C3: a sample whose token ids contain no `IMAGE_TOKEN_INDEX` is merged to
left-padding (`max_image_token_indice` zero-id filler embeddings, then the
sample's image features zeroed out) followed by exactly the plain text
embedding of the sample's ids carrying its original labels; every padding
position is labelled `IGNORE_INDEX`, and the features returned for the
sample are the zeroed ones. -/
theorem assemble_no_image_sample {α : Type} (emb : Int → α) (zero : α)
    (M : Nat) (feats : List α) (ids labels : List Int)
    (h0 : ids.count IMAGE_TOKEN_INDEX = 0) :
    assembleSample emb zero M feats ids labels =
      .ok (List.replicate M (emb 0) ++ List.replicate feats.length zero
             ++ ids.map emb,
           (List.replicate (M + feats.length) IGNORE_INDEX ++ labels,
            List.replicate feats.length zero)) := by
  rw [assembleSample, h0, if_pos rfl, List.map_replicate, List.replicate_add,
    List.append_assoc]

/-- Witness for `assemble_no_image_sample`: a sample `[5]` with no image
placeholder, one feature vector, `max_image_token_indice = 2`. -/
theorem assemble_no_image_sample_witness :
    assembleSample (fun i => i) (0 : Int) 2 [9] [5] [6] =
      .ok (List.replicate 2 ((fun (i : Int) => i) 0) ++ List.replicate 1 0
             ++ ([5] : List Int).map (fun i => i),
           (List.replicate (2 + 1) IGNORE_INDEX ++ [6],
            List.replicate 1 (0 : Int))) :=
  assemble_no_image_sample (fun i => i) 0 2 [9] [5] [6] (by decide)

/-- If some sample of the zipped batch makes `assembleSample` fail, the
sample loop of `preparing_embedding` cannot return a result. -/
theorem prepareLoop_no_ok_of_mem_error {α : Type} (emb : Int → α) (zero : α)
    (M : Nat) (zl : List ((List Int × List Int) × List α))
    (s : List Int × List Int) (f : List α) (e : PrepError)
    (hmem : (s, f) ∈ zl)
    (herr : assembleSample emb zero M f s.1 s.2 = .error e) :
    ∀ out, prepareLoop emb zero M zl ≠ .ok out := by
  revert hmem
  induction zl with
  | nil => intro hmem; cases hmem
  | cons hd tl ih =>
    intro hmem out hok
    obtain ⟨s0, f0⟩ := hd
    rw [prepareLoop] at hok
    rcases List.mem_cons.1 hmem with heq | htl
    · injection heq with hs hf
      subst hs; subst hf
      rw [herr] at hok
      simp at hok
    · rcases hA : assembleSample emb zero M f0 s0.1 s0.2 with e0 | r
      · rw [hA] at hok
        simp at hok
      · rw [hA] at hok
        rcases hT : prepareLoop emb zero M tl with e1 | p
        · rw [hT] at hok
          simp at hok
        · exact absurd hT (ih htl p)

/-- C4: a sample whose token ids contain two or more occurrences of
`IMAGE_TOKEN_INDEX` makes the embedding assembler fail immediately with the
`ValueError` carrying the offending count (for any left-padding width `M`),
and the whole `preparing_embedding` call containing such a sample returns no
result at all. -/
theorem preparing_embedding_too_many_images {α : Type} (emb : Int → α)
    (zero : α) (batch : List (List Int × List Int)) (featsBatch : List (List α))
    (ids labels : List Int) (feats : List α)
    (hmem : ((ids, labels), feats) ∈ batch.zip featsBatch)
    (h2 : 2 ≤ ids.count IMAGE_TOKEN_INDEX) :
    (∀ M, assembleSample emb zero M feats ids labels =
      .error (.tooManyImages (ids.count IMAGE_TOKEN_INDEX))) ∧
    ∀ out, preparing_embedding emb zero batch featsBatch ≠ .ok out := by
  have herr : ∀ M, assembleSample emb zero M feats ids labels =
      .error (.tooManyImages (ids.count IMAGE_TOKEN_INDEX)) := by
    intro M
    rw [assembleSample, if_neg (by omega), if_neg (by omega)]
  exact ⟨herr, fun out =>
    prepareLoop_no_ok_of_mem_error emb zero _ _ (ids, labels) feats _ hmem
      (herr _) out⟩

/-- Witness for `preparing_embedding_too_many_images`: a one-sample batch
whose sample holds the placeholder twice. -/
theorem preparing_embedding_too_many_images_witness :
    assembleSample (fun i => i) (0 : Int) 0 [(5 : Int)]
        [IMAGE_TOKEN_INDEX, IMAGE_TOKEN_INDEX] [0, 0] =
      .error (.tooManyImages
        ([IMAGE_TOKEN_INDEX, IMAGE_TOKEN_INDEX].count IMAGE_TOKEN_INDEX)) ∧
    preparing_embedding (fun i => i) (0 : Int)
        [([IMAGE_TOKEN_INDEX, IMAGE_TOKEN_INDEX], [0, 0])] [[5]] ≠
      .ok ([], []) := by
  have h := preparing_embedding_too_many_images (fun i => i) (0 : Int)
    [([IMAGE_TOKEN_INDEX, IMAGE_TOKEN_INDEX], [0, 0])] [[5]]
    [IMAGE_TOKEN_INDEX, IMAGE_TOKEN_INDEX] [0, 0] [5] (by decide) (by decide)
  exact ⟨h.1 0, h.2 ([], [])⟩

/-- Mapping a function of the first component over a zip does not depend on
the second list beyond its length. -/
theorem map_zip_fst_congr {A B C : Type} (g : A → C) (l : List A) :
    ∀ ms₁ ms₂ : List B, ms₁.length = ms₂.length →
      (l.zip ms₁).map (fun p => g p.1) = (l.zip ms₂).map (fun p => g p.1) := by
  induction l with
  | nil => intro ms₁ ms₂ _; rfl
  | cons a l ih =>
    intro ms₁ ms₂ h
    cases ms₁ with
    | nil => cases ms₂ with
      | nil => rfl
      | cons b bs => simp at h
    | cons b bs => cases ms₂ with
      | nil => simp at h
      | cons c cs =>
        simp only [List.zip_cons_cons, List.map_cons]
        exact congrArg _ (ih bs cs (by simpa using h))

/-- C10: in `pool_features` with the `weighted` reduction, the pooled
outputs do not depend on the `text_masks` argument (`None` or any mask batch
of the right shape), because the mask-penalised weights of line 574 are
immediately overwritten on line 575; the weights actually used are the
softmax of the unmasked mean text-to-vision similarities. -/
theorem pool_weighted_mask_independent (D : Nat)
    (text_embeds vision_features : List (List (List ℝ)))
    (m₁ m₂ : Option (List (List Bool)))
    (h₁ : ∀ ms, m₁ = some ms → ms.length = text_embeds.length)
    (h₂ : ∀ ms, m₂ = some ms → ms.length = text_embeds.length) :
    pool_features .weighted D text_embeds vision_features m₁ =
      pool_features .weighted D text_embeds vision_features m₂ ∧
    ∀ te vf mask, poolWeightedSample D te vf mask =
      (weightedSum D te (softmaxR (textSimMeans te vf)),
       weightedSum D vf (softmaxR (visionSimMeans te vf))) := by
  constructor
  · have l₁ : (m₁.getD (text_embeds.map
        (fun te => List.replicate te.length true))).length = text_embeds.length := by
      cases m₁ with
      | none => simp
      | some ms => simpa using h₁ ms rfl
    have l₂ : (m₂.getD (text_embeds.map
        (fun te => List.replicate te.length true))).length = text_embeds.length := by
      cases m₂ with
      | none => simp
      | some ms => simpa using h₂ ms rfl
    have hdead : ∀ p : (List (List ℝ) × List (List ℝ)) × List Bool,
        poolWeightedSample D p.1.1 p.1.2 p.2 =
          (fun q : List (List ℝ) × List (List ℝ) =>
            poolWeightedSample D q.1 q.2 []) p.1 := fun p => rfl
    simp only [pool_features]
    have key := map_zip_fst_congr
      (fun q : List (List ℝ) × List (List ℝ) => poolWeightedSample D q.1 q.2 [])
      (text_embeds.zip vision_features)
      (m₁.getD (text_embeds.map (fun te => List.replicate te.length true)))
      (m₂.getD (text_embeds.map (fun te => List.replicate te.length true)))
      (l₁.trans l₂.symm)
    rw [List.map_congr_left (fun a _ => hdead a),
        List.map_congr_left (fun a _ => hdead a), key]
  · intro te vf mask; rfl

/-! ### C2: the scan orders are permutations -/

/-- A grid row as a `range'` block. -/
theorem rowEq (n i : Nat) :
    (List.range n).map (fun j => i * n + j) = List.range' (i * n) n :=
  (List.range'_eq_map_range _ _).symm

/-- Concatenating the `h` rows of the grid in order enumerates
`0, …, h*n - 1`. -/
theorem range_mul_flatMap (n : Nat) : ∀ h : Nat,
    (List.range h).flatMap (fun r => List.range' (r * n) n) = List.range (h * n) := by
  intro h
  induction h with
  | zero => simp
  | succ h ih =>
    rw [List.range_succ, List.flatMap_append, ih, List.flatMap_cons, List.flatMap_nil,
      List.append_nil, Nat.succ_mul, List.range_add, List.range'_eq_map_range]

/-- The snake scan order is a permutation of `{0, …, n² - 1}`. -/
theorem snake_perm (n : Nat) :
    (get_snake_scan_order n).Perm (List.range (n * n)) := by
  rw [get_snake_scan_order]
  have h1 : ((List.range n).flatMap (fun i =>
      if i % 2 = 0 then (List.range n).map (fun j => i * n + j)
      else ((List.range n).map (fun j => i * n + j)).reverse)).Perm
      ((List.range n).flatMap (fun i => (List.range n).map (fun j => i * n + j))) := by
    apply List.Perm.flatMap_left
    intro i _
    by_cases hi : i % 2 = 0
    · rw [if_pos hi]
    · rw [if_neg hi]
      exact List.reverse_perm _
  refine h1.trans ?_
  simp only [rowEq]
  rw [range_mul_flatMap]

/-- A grid cell `r*n + c` with `r, c < n` is below `n²`. -/
theorem cell_lt {n r c : Nat} (hr : r < n) (hc : c < n) : r * n + c < n * n := by
  have h1 : r * n + c < (r + 1) * n := by
    rw [Nat.succ_mul]; omega
  have h2 : (r + 1) * n ≤ n * n := Nat.mul_le_mul_right n hr
  omega

/-- Row recovery from a cell index. -/
theorem cell_div {n r c : Nat} (hc : c < n) : (r * n + c) / n = r := by
  rw [Nat.mul_comm, Nat.mul_add_div (by omega), Nat.div_eq_of_lt hc, Nat.add_zero]

/-- Column recovery from a cell index. -/
theorem cell_mod {n r c : Nat} (hc : c < n) : (r * n + c) % n = c := by
  rw [Nat.mul_comm, Nat.mul_add_mod, Nat.mod_eq_of_lt hc]

/-- Cell encoding is injective on the grid. -/
theorem cell_inj {n r c r2 c2 : Nat} (hc : c < n) (hc2 : c2 < n)
    (h : r * n + c = r2 * n + c2) : r = r2 ∧ c = c2 := by
  have h1 := cell_div (r := r) hc
  have h2 := cell_div (r := r2) hc2
  have h3 := cell_mod (r := r) hc
  have h4 := cell_mod (r := r2) hc2
  rw [h] at h1 h3
  exact ⟨h1.symm.trans h2, h3.symm.trans h4⟩

/-- Every element of a zigzag diagonal is a grid cell on that diagonal. -/
theorem zigzagDiag_mem {n i : Nat} {b : Bool} {x : Nat} (hx : x ∈ zigzagDiag n i b) :
    ∃ r c, r < n ∧ c < n ∧ r + c = i ∧ x = r * n + c := by
  unfold zigzagDiag at hx
  rcases b with _ | _
  · rw [if_neg (by simp)] at hx
    by_cases hi : i < n
    · rw [if_pos hi] at hx
      obtain ⟨k, hk, rfl⟩ := List.mem_map.1 hx
      rw [List.mem_range] at hk
      exact ⟨k, i - k, by omega, by omega, by omega, rfl⟩
    · rw [if_neg hi] at hx
      obtain ⟨k, hk, rfl⟩ := List.mem_map.1 hx
      rw [List.mem_range] at hk
      exact ⟨i - (n - 1) + k, n - 1 - k, by omega, by omega, by omega, rfl⟩
  · rw [if_pos (by simp)] at hx
    by_cases hi : i < n
    · rw [if_pos hi] at hx
      obtain ⟨k, hk, rfl⟩ := List.mem_map.1 hx
      rw [List.mem_range] at hk
      exact ⟨i - k, k, by omega, by omega, by omega, rfl⟩
    · rw [if_neg hi] at hx
      obtain ⟨k, hk, rfl⟩ := List.mem_map.1 hx
      rw [List.mem_range] at hk
      exact ⟨n - 1 - k, i - (n - 1) + k, by omega, by omega, by omega, rfl⟩

/-- Every grid cell on a diagonal occurs in that zigzag diagonal (either
scanning direction). -/
theorem zigzagDiag_mem_of {n i r c : Nat} (hr : r < n) (hc : c < n) (hsum : r + c = i)
    (b : Bool) : r * n + c ∈ zigzagDiag n i b := by
  unfold zigzagDiag
  rcases b with _ | _
  · rw [if_neg (by simp)]
    by_cases hi : i < n
    · rw [if_pos hi]
      refine List.mem_map.2 ⟨r, List.mem_range.2 (by omega), ?_⟩
      have h1 : i - r = c := by omega
      rw [h1]
    · rw [if_neg hi]
      refine List.mem_map.2 ⟨r - (i - (n - 1)), List.mem_range.2 (by omega), ?_⟩
      have h1 : i - (n - 1) + (r - (i - (n - 1))) = r := by omega
      have h2 : n - 1 - (r - (i - (n - 1))) = c := by omega
      rw [h1, h2]
  · rw [if_pos (by simp)]
    by_cases hi : i < n
    · rw [if_pos hi]
      refine List.mem_map.2 ⟨c, List.mem_range.2 (by omega), ?_⟩
      have h1 : i - c = r := by omega
      rw [h1]
    · rw [if_neg hi]
      refine List.mem_map.2 ⟨c - (i - (n - 1)), List.mem_range.2 (by omega), ?_⟩
      have h1 : n - 1 - (c - (i - (n - 1))) = r := by omega
      have h2 : i - (n - 1) + (c - (i - (n - 1))) = c := by omega
      rw [h1, h2]

/-- Each zigzag diagonal is duplicate-free. -/
theorem zigzagDiag_nodup (n i : Nat) (b : Bool) : (zigzagDiag n i b).Nodup := by
  unfold zigzagDiag
  rcases b with _ | _
  · rw [if_neg (by simp)]
    by_cases hi : i < n
    · rw [if_pos hi]
      refine List.Nodup.map_on ?_ (List.nodup_range _)
      intro x hx y hy hxy
      rw [List.mem_range] at hx hy
      exact (cell_inj (by omega) (by omega) hxy).1
    · rw [if_neg hi]
      refine List.Nodup.map_on ?_ (List.nodup_range _)
      intro x hx y hy hxy
      rw [List.mem_range] at hx hy
      have := (cell_inj (by omega) (by omega) hxy).2
      omega
  · rw [if_pos (by simp)]
    by_cases hi : i < n
    · rw [if_pos hi]
      refine List.Nodup.map_on ?_ (List.nodup_range _)
      intro x hx y hy hxy
      rw [List.mem_range] at hx hy
      exact (cell_inj (by omega) (by omega) hxy).2
    · rw [if_neg hi]
      refine List.Nodup.map_on ?_ (List.nodup_range _)
      intro x hx y hy hxy
      rw [List.mem_range] at hx hy
      have := (cell_inj (by omega) (by omega) hxy).1
      omega

/-- An element of zigzag diagonal `i` has digit sum `i`. -/
theorem zigzagDiag_sum {n i : Nat} {b : Bool} {x : Nat} (hx : x ∈ zigzagDiag n i b) :
    x / n + x % n = i := by
  obtain ⟨r, c, hr, hc, hsum, rfl⟩ := zigzagDiag_mem hx
  rw [cell_div hc, cell_mod hc]
  exact hsum

/-- The zigzag order is duplicate-free. -/
theorem zigzag_nodup (n : Nat) : (get_zigzag_scan_order n).Nodup := by
  rw [get_zigzag_scan_order]
  refine List.nodup_flatMap.2 ⟨fun i _ => zigzagDiag_nodup n i _, ?_⟩
  refine List.Pairwise.imp ?_ (List.nodup_range (2 * n - 1))
  intro a b hab x hxa hxb
  exact hab ((zigzagDiag_sum hxa).symm.trans (zigzagDiag_sum hxb))

/-- Every index below `n²` occurs in the zigzag order. -/
theorem zigzag_mem_of_lt {n x : Nat} (hx : x < n * n) :
    x ∈ get_zigzag_scan_order n := by
  rcases Nat.eq_zero_or_pos n with rfl | h0
  · simp at hx
  have hc : x % n < n := Nat.mod_lt _ h0
  have hr : x / n < n := by rw [Nat.div_lt_iff_lt_mul h0]; exact hx
  have hx2 : x = (x / n) * n + x % n := by
    rw [Nat.mul_comm]
    exact (Nat.div_add_mod x n).symm
  rw [get_zigzag_scan_order]
  refine List.mem_flatMap.2 ⟨x / n + x % n, List.mem_range.2 (by omega), ?_⟩
  have hmem := zigzagDiag_mem_of (n := n) (i := x / n + x % n) hr hc rfl
    (decide ((x / n + x % n) % 2 = 0))
  rw [← hx2] at hmem
  exact hmem

/-- The zigzag scan order is a permutation of `{0, …, n² - 1}`. -/
theorem zigzag_perm (n : Nat) :
    (get_zigzag_scan_order n).Perm (List.range (n * n)) := by
  rw [List.perm_ext_iff_of_nodup (zigzag_nodup n) (List.nodup_range _)]
  intro x
  rw [List.mem_range]
  constructor
  · intro hx
    rw [get_zigzag_scan_order] at hx
    obtain ⟨i, _, hmem⟩ := List.mem_flatMap.1 hx
    obtain ⟨r, c, hr, hc, _, rfl⟩ := zigzagDiag_mem hmem
    exact cell_lt hr hc
  · exact zigzag_mem_of_lt

/-- Peeling the first row off a grid rectangle. -/
theorem rect_cons (n t h l w : Nat) : rectCells n t (h + 1) l w =
    ((List.range' l w).map (fun c => t * n + c)) ++ rectCells n (t + 1) h l w := by
  rw [rectCells, rectCells, List.range'_succ, List.flatMap_cons]

/-- Peeling the last row off a grid rectangle. -/
theorem rect_concat (n t h l w : Nat) : rectCells n t (h + 1) l w =
    rectCells n t h l w ++ ((List.range' l w).map (fun c => (t + h) * n + c)) := by
  rw [rectCells, rectCells, List.range'_concat, List.flatMap_append,
    List.flatMap_cons, List.flatMap_nil, List.append_nil, Nat.one_mul]

/-- A rectangle with no rows is empty. -/
theorem rect_zero_h (n t l w : Nat) : rectCells n t 0 l w = [] := by
  rw [rectCells, List.range'_zero, List.flatMap_nil]

/-- A rectangle with no columns is empty. -/
theorem rect_zero_w (n t h l : Nat) : rectCells n t h l 0 = [] := by
  rw [rectCells]
  induction List.range' t h with
  | nil => rfl
  | cons a tl ih => rw [List.flatMap_cons, ih, List.range'_zero, List.map_nil,
      List.nil_append]

/-- Splitting a full grid row into its first cell, interior, and last cell. -/
theorem rowFull_split (n r l w : Nat) :
    (List.range' l (w + 2)).map (fun c => r * n + c) =
      ([r * n + l] ++ ((List.range' (l + 1) w).map (fun c => r * n + c))) ++
        [r * n + (l + 1 + w)] := by
  have h : w + 2 = (w + 1) + 1 := rfl
  have e : l + (w + 1) = l + 1 + w := by omega
  rw [h, List.range'_concat, Nat.one_mul, e, List.range'_succ]
  simp

/-- `flatMap` of a pointwise append splits as a multiset sum. -/
theorem ms_flatMap_add {A : Type} (l : List A) (f g : A → List Nat) :
    (↑(l.flatMap (fun a => f a ++ g a)) : Multiset Nat) =
      ↑(l.flatMap f) + ↑(l.flatMap g) := by
  induction l with
  | nil => simp
  | cons a tl ih =>
    simp only [List.flatMap_cons, ← Multiset.coe_add]
    rw [ih]
    abel

/-- `flatMap` of singletons is a map. -/
theorem flatMap_map_singleton {A : Type} (l : List A) (f : A → Nat) :
    l.flatMap (fun a => [f a]) = l.map f := by
  induction l with
  | nil => rfl
  | cons a tl ih => rw [List.flatMap_cons, List.map_cons, ih]; rfl

/-- The spiral walk over the rectangle `[top, bottom] × [left, right]`
visits exactly the cells of that rectangle (as a multiset). -/
theorem spiralAux_perm (n left right top bottom : Nat) :
    (spiralAux n left right top bottom).Perm
      (rectCells n top (bottom + 1 - top) left (right + 1 - left)) := by
  rw [spiralAux]
  by_cases h : left ≤ right ∧ top ≤ bottom
  · rw [dif_pos h]
    by_cases hlt : left < right ∧ top < bottom
    · -- full perimeter case
      rw [if_pos hlt]
      obtain ⟨w, rfl⟩ : ∃ w, right = left + 1 + w := ⟨right - left - 1, by omega⟩
      obtain ⟨hgt, rfl⟩ : ∃ hgt, bottom = top + 1 + hgt := ⟨bottom - top - 1, by omega⟩
      have IH := spiralAux_perm n (left + 1) (left + 1 + w - 1) (top + 1)
        (top + 1 + hgt - 1)
      have e1 : left + 1 + w - 1 = left + w := by omega
      have e2 : top + 1 + hgt - 1 = top + hgt := by omega
      have e3 : top + hgt + 1 - (top + 1) = hgt := by omega
      have e4 : left + w + 1 - (left + 1) = w := by omega
      rw [e1, e2] at IH ⊢
      rw [e3, e4] at IH
      have e5 : left + 1 + w + 1 - left = w + 2 := by omega
      have e6 : top + 1 + hgt - top = hgt + 1 := by omega
      have e7 : left + w - left = w := by omega
      have e8 : top + 1 + hgt + 1 - top = hgt + 2 := by omega
      rw [e5, e6, e7, e8]
      rw [← Multiset.coe_eq_coe] at IH ⊢
      rw [rectCells] at IH
      have e9 : hgt + 2 = (hgt + 1) + 1 := rfl
      rw [e9, rect_cons n top (hgt + 1) left (w + 2),
        rect_concat n (top + 1) hgt left (w + 2)]
      rw [rectCells]
      -- split the two full-height columns of the spiral body
      have csplitR : (List.range' (top + 1) (hgt + 1)).map
          (fun r => r * n + (left + 1 + w)) =
          ((List.range' (top + 1) hgt).map (fun r => r * n + (left + 1 + w))) ++
            [(top + 1 + hgt) * n + (left + 1 + w)] := by
        rw [List.range'_concat, Nat.one_mul, List.map_append, List.map_singleton]
      have csplitL : (List.range' (top + 1) (hgt + 1)).map (fun r => r * n + left) =
          ((List.range' (top + 1) hgt).map (fun r => r * n + left)) ++
            [(top + 1 + hgt) * n + left] := by
        rw [List.range'_concat, Nat.one_mul, List.map_append, List.map_singleton]
      rw [csplitR, csplitL]
      simp only [rowFull_split]
      simp only [← Multiset.coe_add, Multiset.coe_reverse]
      rw [ms_flatMap_add (List.range' (top + 1) hgt)
        (fun r => [r * n + left] ++ (List.range' (left + 1) w).map (fun c => r * n + c))
        (fun r => [r * n + (left + 1 + w)]),
        ms_flatMap_add (List.range' (top + 1) hgt)
        (fun r => [r * n + left])
        (fun r => (List.range' (left + 1) w).map (fun c => r * n + c)),
        flatMap_map_singleton (List.range' (top + 1) hgt) (fun r => r * n + left),
        flatMap_map_singleton (List.range' (top + 1) hgt)
          (fun r => r * n + (left + 1 + w))]
      rw [IH]
      abel
    · -- degenerate case: single row or single column
      rw [if_neg hlt]
      obtain ⟨hlr, htb⟩ := h
      rcases Nat.lt_or_ge top bottom with htlt | htge
      · -- top < bottom, so left = right: single column
        have hrl : right = left := by omega
        rw [hrl, spiralAux, dif_neg (by omega)]
        have e1 : left + 1 - left = 1 := by omega
        have e2 : bottom + 1 - top = (bottom - top) + 1 := by omega
        rw [e1, e2, rect_cons n top (bottom - top) left 1]
        rw [rectCells]
        simp only [List.range'_one, List.map_singleton]
        rw [flatMap_map_singleton (List.range' (top + 1) (bottom - top))
          (fun r => r * n + left)]
        simp
      · -- top = bottom: single row
        have hbt : bottom = top := by omega
        rw [hbt, spiralAux, dif_neg (by omega)]
        have e1 : top - top = 0 := by omega
        have e2 : top + 1 - top = 0 + 1 := by omega
        rw [e1, e2, rect_cons n top 0 left (right + 1 - left), rect_zero_h]
        simp
  · rw [dif_neg h]
    have h0 : bottom + 1 - top = 0 ∨ right + 1 - left = 0 := by omega
    rcases h0 with h0 | h0 <;> rw [h0]
    · rw [rect_zero_h]
    · rw [rect_zero_w]
termination_by (right + 1 - left) + (bottom + 1 - top)
decreasing_by omega

/-- The spiral scan order is a permutation of `{0, …, n² - 1}`. -/
theorem spiral_perm (n : Nat) :
    (get_spiral_scan_order n).Perm (List.range (n * n)) := by
  rw [get_spiral_scan_order]
  by_cases hn : n = 0
  · subst hn
    rw [if_pos rfl]
    exact List.Perm.refl []
  · rw [if_neg hn]
    have h := spiralAux_perm n 0 (n - 1) 0 (n - 1)
    have e : n - 1 + 1 - 0 = n := by omega
    rw [e] at h
    refine h.trans ?_
    rw [rectCells]
    simp only [← List.range_eq_range', rowEq]
    rw [range_mul_flatMap]

/-- Applying a scan order that is a permutation of `{0, …, m-1}` and then its
inverse order restores any length-`m` sequence. -/
theorem applyOrder_invOrder {α : Type} (p : List Nat) (m : Nat)
    (hp : p.Perm (List.range m)) (d : α) (xs : List α) (hxs : xs.length = m) :
    applyOrder (invOrder p) d (applyOrder p d xs) = xs := by
  have hlen : p.length = m := by simpa using hp.length_eq
  have hmem : ∀ i, i ∈ p ↔ i < m := fun i => by rw [hp.mem_iff, List.mem_range]
  rw [applyOrder, applyOrder, invOrder, List.map_map]
  apply List.ext_getElem
  · simp [hlen, hxs]
  · intro j h1 h2
    simp only [List.getElem_map, List.getElem_range, Function.comp]
    have hj : j < m := by simpa [hlen] using h1
    have hidx : p.indexOf j < p.length := List.indexOf_lt_length.2 ((hmem j).2 hj)
    rw [List.getD_eq_getElem?_getD, List.getElem?_map, List.getElem?_eq_getElem hidx]
    simp only [Option.map_some', Option.getD_some]
    rw [List.getElem_indexOf hidx]
    rw [List.getD_eq_getElem?_getD, List.getElem?_eq_getElem (by omega : j < xs.length)]
    rfl

/-- C2: for every grid side `n ≥ 1`, the spiral, snake and zigzag scan
orders are each permutations of `{0, …, n² - 1}`; applying any such
permutation and then its inverse restores the original order; and
`get_spiral_scan_order 3 = [0, 1, 2, 5, 8, 7, 6, 3, 4]`. -/
theorem scan_orders_bijective (n : Nat) (_hn : 1 ≤ n) :
    (get_spiral_scan_order n).Perm (List.range (n * n)) ∧
    (get_snake_scan_order n).Perm (List.range (n * n)) ∧
    (get_zigzag_scan_order n).Perm (List.range (n * n)) ∧
    (∀ p : List Nat, p.Perm (List.range (n * n)) →
      ∀ (α : Type) (d : α) (xs : List α), xs.length = n * n →
        applyOrder (invOrder p) d (applyOrder p d xs) = xs) ∧
    get_spiral_scan_order 3 = [0, 1, 2, 5, 8, 7, 6, 3, 4] := by
  refine ⟨spiral_perm n, snake_perm n, zigzag_perm n,
    fun p hp α d xs hxs => applyOrder_invOrder p (n * n) hp d xs hxs, ?_⟩
  have h1 : spiralAux 3 2 0 2 0 = [] := by
    rw [spiralAux, dif_neg (by decide)]
  have h2 : spiralAux 3 1 1 1 1 = [4] := by
    rw [spiralAux, dif_pos (by decide), if_neg (by decide), h1]
    decide
  have h3 : spiralAux 3 0 2 0 2 = [0, 1, 2, 5, 8, 7, 6, 3, 4] := by
    rw [spiralAux, dif_pos (by decide), if_pos (by decide), h2]
    decide
  have e : (3 : Nat) - 1 = 2 := rfl
  rw [get_spiral_scan_order, if_neg (by decide), e, h3]

/-- Witness for `scan_orders_bijective` at `n = 3`, checking the inverse
composition on the spiral order over a concrete length-9 sequence. -/
theorem scan_orders_bijective_witness :
    (get_spiral_scan_order 3).Perm (List.range (3 * 3)) ∧
    (get_snake_scan_order 3).Perm (List.range (3 * 3)) ∧
    (get_zigzag_scan_order 3).Perm (List.range (3 * 3)) ∧
    applyOrder (invOrder (get_spiral_scan_order 3)) 0
      (applyOrder (get_spiral_scan_order 3) 0 [10, 11, 12, 13, 14, 15, 16, 17, 18]) =
      [10, 11, 12, 13, 14, 15, 16, 17, 18] ∧
    get_spiral_scan_order 3 = [0, 1, 2, 5, 8, 7, 6, 3, 4] := by
  have h := scan_orders_bijective 3 (by decide)
  exact ⟨h.1, h.2.1, h.2.2.1,
    h.2.2.2.1 (get_spiral_scan_order 3) h.1 Nat 0
      [10, 11, 12, 13, 14, 15, 16, 17, 18] (by decide),
    h.2.2.2.2⟩

/-- Witness for `pool_weighted_mask_independent`: a single sample of one
text position and one vision position, with an all-true versus an all-false
mask. -/
theorem pool_weighted_mask_independent_witness :
    pool_features .weighted 1 [[[(1 : ℝ)]]] [[[(1 : ℝ)]]] (some [[true]]) =
      pool_features .weighted 1 [[[(1 : ℝ)]]] [[[(1 : ℝ)]]] (some [[false]]) ∧
    poolWeightedSample 1 [[(1 : ℝ)]] [[(1 : ℝ)]] [false] =
      (weightedSum 1 [[(1 : ℝ)]] (softmaxR (textSimMeans [[(1 : ℝ)]] [[(1 : ℝ)]])),
       weightedSum 1 [[(1 : ℝ)]]
         (softmaxR (visionSimMeans [[(1 : ℝ)]] [[(1 : ℝ)]]))) := by
  have h := pool_weighted_mask_independent 1 [[[(1 : ℝ)]]] [[[(1 : ℝ)]]]
    (some [[true]]) (some [[false]])
    (fun ms hms => by cases hms; rfl) (fun ms hms => by cases hms; rfl)
  exact ⟨h.1, h.2 [[(1 : ℝ)]] [[(1 : ℝ)]] [false]⟩

/-! ### C6: ring-buffer update of the alignment forward -/

/-- Reading back inside a freshly written slice. -/
theorem writeSlice_getD_in {α : Type} (q : List α) (ptr : Nat) (xs : List α) (d : α)
    (hle : ptr + xs.length ≤ q.length) (j : Nat) (hj : j < xs.length) :
    (writeSlice q ptr xs).getD (ptr + j) d = xs.getD j d := by
  have hts : (q.take ptr).length = ptr := by
    rw [List.length_take]; omega
  rw [writeSlice, List.getD_eq_getElem?_getD, List.getD_eq_getElem?_getD,
    List.append_assoc, List.getElem?_append_right (by rw [hts]; omega), hts,
    Nat.add_sub_cancel_left,
    List.getElem?_append_left hj]

/-- Reading outside a written slice returns the old entry. -/
theorem writeSlice_getD_out {α : Type} (q : List α) (ptr : Nat) (xs : List α) (d : α)
    (hle : ptr + xs.length ≤ q.length) (p : Nat)
    (hout : p < ptr ∨ ptr + xs.length ≤ p) :
    (writeSlice q ptr xs).getD p d = q.getD p d := by
  have hts : (q.take ptr).length = ptr := by
    rw [List.length_take]; omega
  rw [writeSlice, List.getD_eq_getElem?_getD, List.getD_eq_getElem?_getD,
    List.append_assoc]
  rcases hout with hlt | hge
  · rw [List.getElem?_append_left (by rw [hts]; omega),
      List.getElem?_take_of_lt hlt]
  · rw [List.getElem?_append_right (by rw [hts]; omega), hts,
      List.getElem?_append_right (by omega), List.getElem?_drop]
    have he : ptr + xs.length + (p - ptr - xs.length) = p := by omega
    rw [he]

/-- C6: every `ContrastiveAlignment.forward` call — whichever loss branch is
taken, since the queue write follows both branches unconditionally —
overwrites positions `queue_ptr … queue_ptr + batch_size - 1` of the text
queue with the batch's (mask-applied, unpooled) text embeddings and of the
vision queue with the batch's raw vision embeddings, leaves every other
queue entry unchanged, and advances the write pointer to
`(queue_ptr + batch_size) % queue_size`, which remains in
`[0, queue_size)`. -/
theorem align_forward_queue_update (red : Reduction) (D queue_size : Nat)
    (proj : List ℝ → List ℝ) (st : AlignState)
    (text_embeds vision_embeds : List (List (List ℝ)))
    (text_masks : List (List Bool))
    (hq : st.queue_ptr + text_embeds.length ≤ queue_size)
    (hqs : 0 < queue_size)
    (htq : st.text_queue.length = queue_size)
    (hvq : st.vision_queue.length = queue_size)
    (hm : text_masks.length = text_embeds.length)
    (hv : vision_embeds.length = text_embeds.length) :
    (align_forward red D queue_size proj st text_embeds vision_embeds
        text_masks).map Prod.snd =
      .ok { text_queue := writeSlice st.text_queue st.queue_ptr
              (List.zipWith maskText text_embeds text_masks),
            vision_queue := writeSlice st.vision_queue st.queue_ptr vision_embeds,
            queue_ptr := (st.queue_ptr + text_embeds.length) % queue_size } ∧
    (st.queue_ptr + text_embeds.length) % queue_size < queue_size ∧
    (∀ j, j < text_embeds.length →
      (writeSlice st.text_queue st.queue_ptr
          (List.zipWith maskText text_embeds text_masks)).getD
          (st.queue_ptr + j) [] =
        (List.zipWith maskText text_embeds text_masks).getD j [] ∧
      (writeSlice st.vision_queue st.queue_ptr vision_embeds).getD
          (st.queue_ptr + j) [] = vision_embeds.getD j []) ∧
    (∀ p, p < st.queue_ptr ∨ st.queue_ptr + text_embeds.length ≤ p →
      (writeSlice st.text_queue st.queue_ptr
          (List.zipWith maskText text_embeds text_masks)).getD p [] =
        st.text_queue.getD p [] ∧
      (writeSlice st.vision_queue st.queue_ptr vision_embeds).getD p [] =
        st.vision_queue.getD p []) := by
  have hml : (List.zipWith maskText text_embeds text_masks).length =
      text_embeds.length := by
    rw [List.length_zipWith]; omega
  refine ⟨?_, Nat.mod_lt _ hqs, ?_, ?_⟩
  · simp only [align_forward]
    rw [if_pos hq]
    rfl
  · intro j hj
    exact ⟨writeSlice_getD_in _ _ _ _ (by omega) j (by omega),
           writeSlice_getD_in _ _ _ _ (by omega) j (by omega)⟩
  · intro p hp
    exact ⟨writeSlice_getD_out _ _ _ _ (by omega) p (by omega),
           writeSlice_getD_out _ _ _ _ (by omega) p (by omega)⟩

/-- Witness for `align_forward_queue_update`: a one-sample batch written into
a two-slot queue at pointer 0; position 1 is untouched and the pointer moves
to 1. -/
theorem align_forward_queue_update_witness :
    (align_forward .mean 1 2 (fun v => v)
        ⟨[[[(0 : ℝ)]], [[5]]], [[[(0 : ℝ)]], [[6]]], 0⟩
        [[[(2 : ℝ)]]] [[[(3 : ℝ)]]] [[true]]).map Prod.snd =
      .ok { text_queue := writeSlice [[[(0 : ℝ)]], [[5]]] 0
              (List.zipWith maskText [[[(2 : ℝ)]]] [[true]]),
            vision_queue := writeSlice [[[(0 : ℝ)]], [[6]]] 0 [[[(3 : ℝ)]]],
            queue_ptr := (0 + 1) % 2 } ∧
    (0 + 1) % 2 < 2 ∧
    ((writeSlice [[[(0 : ℝ)]], [[5]]] 0
        (List.zipWith maskText [[[(2 : ℝ)]]] [[true]])).getD (0 + 0) [] =
      (List.zipWith maskText [[[(2 : ℝ)]]] [[true]]).getD 0 [] ∧
     (writeSlice [[[(0 : ℝ)]], [[6]]] 0 [[[(3 : ℝ)]]]).getD (0 + 0) [] =
      [[[(3 : ℝ)]]].getD 0 []) ∧
    ((writeSlice [[[(0 : ℝ)]], [[5]]] 0
        (List.zipWith maskText [[[(2 : ℝ)]]] [[true]])).getD 1 [] =
      [[[(0 : ℝ)]], [[5]]].getD 1 [] ∧
     (writeSlice [[[(0 : ℝ)]], [[6]]] 0 [[[(3 : ℝ)]]]).getD 1 [] =
      [[[(0 : ℝ)]], [[6]]].getD 1 []) := by
  have h := align_forward_queue_update .mean 1 2 (fun v => v)
    ⟨[[[(0 : ℝ)]], [[5]]], [[[(0 : ℝ)]], [[6]]], 0⟩
    [[[(2 : ℝ)]]] [[[(3 : ℝ)]]] [[true]]
    (by simp) (by omega) (by simp) (by simp) (by simp) (by simp)
  exact ⟨h.1, h.2.1, h.2.2.1 0 (by simp), h.2.2.2 1 (by simp)⟩

/-! ### C7: batch size 1 uses only the in-queue loss, finite at cold start -/

/-- `mapM` over `Option` succeeds when every element succeeds. -/
theorem mapM_isSome_of {A B : Type} (f : A → Option B) :
    ∀ l : List A, (∀ a ∈ l, (f a).isSome = true) → (l.mapM f).isSome = true := by
  intro l
  induction l with
  | nil => intro _; rfl
  | cons a tl ih =>
    intro h
    obtain ⟨b, hb⟩ := Option.isSome_iff_exists.1 (h a (List.mem_cons_self a tl))
    obtain ⟨bs, hbs⟩ :=
      Option.isSome_iff_exists.1 (ih (fun x hx => h x (List.mem_cons_of_mem a hx)))
    rw [List.mapM_cons, hb, hbs]
    rfl

/-- Filtering an all-true mask drops nothing. -/
theorem filter_id_replicate_true (k : Nat) :
    (List.replicate k true).filter id = List.replicate k true := by
  induction k with
  | zero => rfl
  | succ k ih => rw [List.replicate_succ, List.filter_cons]; simp [ih]

/-- C7: with batch size exactly 1, `ContrastiveAlignment.forward` returns
only the in-queue loss (the in-batch branch is skipped), and at cold start —
both queues holding all-zero entries, as `register_buffer` initialises
them — that in-queue loss is a well-defined (finite) value, provided the
sample has a non-empty mask and non-empty feature sequences. -/
theorem align_forward_batch_one (D queue_size Tq Vq : Nat)
    (proj : List ℝ → List ℝ) (st : AlignState)
    (te ve : List (List ℝ)) (m : List Bool)
    (htq : st.text_queue = List.replicate queue_size
      (List.replicate Tq (List.replicate D 0)))
    (hvq : st.vision_queue = List.replicate queue_size
      (List.replicate Vq (List.replicate D 0)))
    (hTq : 0 < Tq) (hVq : 0 < Vq)
    (hmask : (m.filter id).length ≠ 0)
    (hve : ve ≠ []) :
    (∀ st2 : AlignState, st2.queue_ptr + 1 ≤ queue_size →
      (align_forward .mean D queue_size proj st2 [te] [ve] [m]).map Prod.fst =
        .ok (compute_in_queue_constraive_loss .mean D [maskText te m]
          [ve.map proj] [m] st2.text_queue
          (st2.vision_queue.map (fun s => s.map proj)))) ∧
    (compute_in_queue_constraive_loss .mean D [maskText te m] [ve.map proj] [m]
      st.text_queue (st.vision_queue.map (fun s => s.map proj))).isSome = true := by
  have hvlen : (ve.map proj).length ≠ 0 := by
    simp only [List.length_map, ne_eq, List.length_eq_zero]
    exact hve
  constructor
  · intro st2 h2
    simp only [align_forward]
    rw [if_pos (show st2.queue_ptr + [te].length ≤ queue_size from by simpa using h2),
      if_neg (show ¬([te].length ≠ 1) from by simp)]
    rfl
  · have hpos : (pool_features .mean D [maskText te m] [ve.map proj]
        (some [m])).isSome = true := by
      simp only [pool_features, Option.getD_some]
      have h1 : (([maskText te m].zip [m]).mapM
          (fun p => poolTextMean D p.1 p.2)).isSome = true := by
        apply mapM_isSome_of
        intro a ha
        obtain ⟨x, y⟩ := a
        obtain ⟨hx, hy⟩ := List.of_mem_zip ha
        rw [List.mem_singleton] at hx hy
        subst hx; subst hy
        simp [poolTextMean, hmask]
      have h2 : (([ve.map proj] : List (List (List ℝ))).mapM
          (poolVisionMean D)).isSome = true := by
        apply mapM_isSome_of
        intro a ha
        rw [List.mem_singleton] at ha
        subst ha
        simp [poolVisionMean, hvlen, hve]
      obtain ⟨tp, htp⟩ := Option.isSome_iff_exists.1 h1
      obtain ⟨vp, hvp⟩ := Option.isSome_iff_exists.1 h2
      rw [htp, hvp]
      rfl
    have hneg : (pool_features .mean D st.text_queue
        (st.vision_queue.map (fun s => s.map proj)) none).isSome = true := by
      rw [htq, hvq, List.map_replicate]
      simp only [pool_features, Option.getD_none]
      have hmasks : (List.replicate queue_size
          (List.replicate Tq (List.replicate D (0 : ℝ)))).map
          (fun te => List.replicate te.length true) =
          List.replicate queue_size (List.replicate Tq true) := by
        rw [List.map_replicate, List.length_replicate]
      rw [hmasks]
      have h1 : (((List.replicate queue_size
            (List.replicate Tq (List.replicate D (0 : ℝ)))).zip
          (List.replicate queue_size (List.replicate Tq true))).mapM
          (fun p => poolTextMean D p.1 p.2)).isSome = true := by
        apply mapM_isSome_of
        intro a ha
        obtain ⟨x, y⟩ := a
        obtain ⟨hx, hy⟩ := List.of_mem_zip ha
        have hy2 : y = List.replicate Tq true := List.eq_of_mem_replicate hy
        simp [poolTextMean, hy2, filter_id_replicate_true, hTq.ne']
      have h2 : ((List.replicate queue_size
          ((List.replicate Vq (List.replicate D (0 : ℝ))).map proj)).mapM
          (poolVisionMean D)).isSome = true := by
        apply mapM_isSome_of
        intro a ha
        have ha2 : a = (List.replicate Vq (List.replicate D (0 : ℝ))).map proj :=
          List.eq_of_mem_replicate ha
        simp [poolVisionMean, ha2, hVq.ne']
      obtain ⟨tp, htp⟩ := Option.isSome_iff_exists.1 h1
      obtain ⟨vp, hvp⟩ := Option.isSome_iff_exists.1 h2
      rw [htp, hvp]
      rfl
    obtain ⟨P, hP⟩ := Option.isSome_iff_exists.1 hpos
    obtain ⟨N, hN⟩ := Option.isSome_iff_exists.1 hneg
    obtain ⟨tp, vp⟩ := P
    obtain ⟨tnp, vnp⟩ := N
    simp only [compute_in_queue_constraive_loss]
    rw [hP, hN]
    rfl

/-- Witness for `align_forward_batch_one`: one sample of one text position
and one vision position against a one-slot all-zero queue. -/
theorem align_forward_batch_one_witness :
    (align_forward .mean 1 1 (fun v => v) ⟨[[[(0 : ℝ)]]], [[[(0 : ℝ)]]], 0⟩
        [[[(1 : ℝ)]]] [[[(1 : ℝ)]]] [[true]]).map Prod.fst =
      .ok (compute_in_queue_constraive_loss .mean 1 [maskText [[(1 : ℝ)]] [true]]
        [[[(1 : ℝ)]].map (fun v => v)] [[true]] [[[(0 : ℝ)]]]
        ([[[(0 : ℝ)]]].map (fun s => s.map (fun v => v)))) ∧
    (compute_in_queue_constraive_loss .mean 1 [maskText [[(1 : ℝ)]] [true]]
      [[[(1 : ℝ)]].map (fun v => v)] [[true]] [[[(0 : ℝ)]]]
      ([[[(0 : ℝ)]]].map (fun s => s.map (fun v => v)))).isSome = true := by
  have h := align_forward_batch_one 1 1 1 1 (fun v => v)
    ⟨[[[(0 : ℝ)]]], [[[(0 : ℝ)]]], 0⟩ [[(1 : ℝ)]] [[(1 : ℝ)]] [true]
    rfl rfl (by decide) (by decide) (by decide) (by simp)
  exact ⟨h.1 ⟨[[[(0 : ℝ)]]], [[[(0 : ℝ)]]], 0⟩ (by simp), h.2⟩

/-! ### C9: the generation entry point -/

/-- Structural properties of a successful greedy `generate` run: the length
bound, the stop token only at the end, the greedy first token, and the
one-step inversion exhibiting the context re-truncation. -/
theorem generate_ok_props {α : Type} (logitsOf : List α → List ℚ) (emb : Nat → α)
    (ctx_len stop : Nat) :
    ∀ (m : Nat) (x : List α) (l : List Nat),
      generate logitsOf emb ctx_len stop false m x = .ok l →
      l.length ≤ m ∧
      (∀ v ∈ l.dropLast, v ≠ stop) ∧
      (stop ∈ l → l.getLast? = some stop) ∧
      (0 < m → l.head? = some (listArgmax (logitsOf x))) ∧
      (∀ t rest, l = t :: rest → t ≠ stop →
        generate logitsOf emb ctx_len stop false (m - 1)
          (pyTail ctx_len (x ++ [emb t])) = .ok rest) := by
  intro m
  induction m with
  | zero =>
    intro x l h
    simp only [generate] at h
    injection h with h2
    subst h2
    exact ⟨by simp, by simp, by simp, fun h0 => absurd h0 (Nat.lt_irrefl 0),
      fun t rest he => nomatch he⟩
  | succ m ih =>
    intro x l h
    simp only [generate] at h
    rw [if_neg (by simp)] at h
    by_cases hstop : listArgmax (logitsOf x) = stop
    · rw [if_pos hstop] at h
      injection h with h2
      subst h2
      refine ⟨by simp, by simp, fun _ => by simp [hstop], fun _ => rfl, ?_⟩
      intro t0 rest he hne
      injection he with he1 he2
      exact absurd (he1.symm.trans hstop) hne
    · rw [if_neg hstop] at h
      rcases hrec : generate logitsOf emb ctx_len stop false m
          (pyTail ctx_len (x ++ [emb (listArgmax (logitsOf x))])) with e | rest
      · rw [hrec] at h
        simp at h
      · rw [hrec] at h
        injection h with h2
        subst h2
        obtain ⟨ihlen, ihdrop, ihlast, ihhead, ihinv⟩ := ih _ rest hrec
        refine ⟨by simp; omega, ?_, ?_, fun _ => rfl, ?_⟩
        · cases rest with
          | nil => simp
          | cons r rs =>
            intro v hv
            rw [List.dropLast_cons₂] at hv
            rcases List.mem_cons.1 hv with rfl | hv3
            · exact hstop
            · exact ihdrop v hv3
        · intro hmem
          rcases List.mem_cons.1 hmem with heq | hmem2
          · exact absurd heq.symm hstop
          · have hlast := ihlast hmem2
            have hne2 : rest ≠ [] := List.ne_nil_of_mem hmem2
            cases rest with
            | nil => exact absurd rfl hne2
            | cons r rs => simpa [List.getLast?_cons_cons] using hlast
        · intro t0 rest0 he hne
          injection he with he1 he2
          subst he2
          subst he1
          simpa using hrec

/-- C9: a `generate` run with `do_sample=False` emits at most
`max_new_tokens` ids; the stop token never occurs before the last position,
and if it occurs it is the last element; the first id is the arg-max of the
initial context's last-position logits; after an emission that is not the
stop token, the remaining ids come from the context extended by the emitted
token's embedding and re-truncated to the last `ctx_len` positions; and
`do_sample=True` raises `NotImplementedError` before emitting anything. -/
theorem generate_spec {α : Type} (logitsOf : List α → List ℚ) (emb : Nat → α)
    (ctx_len stop m : Nat) (x : List α) (l : List Nat)
    (h : generate logitsOf emb ctx_len stop false m x = .ok l) :
    l.length ≤ m ∧
    (∀ v ∈ l.dropLast, v ≠ stop) ∧
    (stop ∈ l → l.getLast? = some stop) ∧
    (0 < m → l.head? = some (listArgmax (logitsOf x))) ∧
    (∀ t rest, l = t :: rest → t ≠ stop →
      generate logitsOf emb ctx_len stop false (m - 1)
        (pyTail ctx_len (x ++ [emb t])) = .ok rest) ∧
    (∀ (m2 : Nat) (x2 : List α), 0 < m2 →
      generate logitsOf emb ctx_len stop true m2 x2 = .error ()) := by
  obtain ⟨h1, h2, h3, h4, h5⟩ := generate_ok_props logitsOf emb ctx_len stop m x l h
  refine ⟨h1, h2, h3, h4, h5, ?_⟩
  intro m2 x2 hm2
  cases m2 with
  | zero => exact absurd hm2 (Nat.lt_irrefl 0)
  | succ k => simp [generate]

/-- Witness for `generate_spec`: with the `demo_logits` oracle, three steps
of fuel emit `[1, 0]` with stop token 0 — token 1 greedily, then the stop
token, which ends and is included — and sampling mode fails at once. -/
theorem generate_spec_witness :
    ([1, 0] : List Nat).length ≤ 3 ∧
    (1 : Nat) ≠ 0 ∧
    ([1, 0] : List Nat).getLast? = some 0 ∧
    ([1, 0] : List Nat).head? = some (listArgmax (demo_logits [()])) ∧
    generate demo_logits demo_emb 5 0 false 2 (pyTail 5 ([()] ++ [demo_emb 1])) =
      .ok [0] ∧
    generate demo_logits demo_emb 5 0 true 1 [()] = .error () := by
  have h := generate_spec demo_logits demo_emb 5 0 3 [()] [1, 0] (by rfl)
  exact ⟨h.1, h.2.1 1 (by decide), h.2.2.1 (by decide), h.2.2.2.1 (by decide),
    h.2.2.2.2.1 1 [0] rfl (by decide), h.2.2.2.2.2 1 [()] (by decide)⟩

end VisualRWKV
